import Mathlib

/-!
Shallow embedding of the crossword CSP solver in `src/crossword/generate.py`
(class `CrosswordCreator`), together with a model of the puzzle object from the
`crossword` module, which is not part of the repository sources and is
therefore reconstructed from the specification.

Python dictionaries are embedded as association lists without duplicate keys,
Python sets as lists (fixing one iteration order), and the mutable
`self.domains` store as a function `Var → List Word` threaded explicitly.  `backtrack` mutates the
`assignment` dict in place, so its embedding returns both the Python return
value (the inner `Option`) and the final state of the dict; the outer `Option`
is fuel exhaustion of the fuelled recursion and corresponds to no Python
behaviour.  `random.choice` is abstracted by a choice function `sel`.
-/

set_option maxRecDepth 4000

namespace CrosswordGen

/-- Crossword slot (the `Variable` class of the `crossword` module).
Modelled from the spec: a variable has a starting row, a starting column, a
direction (ACROSS or DOWN, encoded as the Bool `down`), and a length; identity
is structural. -/
structure Var where
  row : Nat
  col : Nat
  down : Bool
  length : Nat
deriving DecidableEq, Repr

/-- Words are strings, embedded as lists of characters. -/
abbrev Word := List Char

/-- Python `word[k]`; out-of-range reads are totalised with a blank. -/
def charAt (w : Word) (i : Nat) : Char := w.getD i ' '

/-- Model of the `Crossword` puzzle object of the `crossword` module.
Modelled from the spec: the puzzle exposes its variable set, the word
dictionary, and the precomputed overlap relation stored per ordered pair.  The
variable set is carried as a list, fixing one iteration order for the Python
sets. -/
structure Crossword where
  vars : List Var
  words : List Word
  overlaps : Var → Var → Option (Nat × Nat)

/-- Modelled from the spec: `Crossword.neighbors(x)` is the set of variables
having a defined overlap with `x`. -/
def neighbors (cw : Crossword) (x : Var) : List Var :=
  cw.vars.filter fun y => (cw.overlaps x y).isSome

/-- A Python dict mapping variables to words, as an association list. -/
abbrev Assignment := List (Var × Word)

/-- Python `assignment[v]` / `v in assignment`. -/
def lookupA : Assignment → Var → Option Word
  | [], _ => none
  | p :: rest, v => if p.1 = v then some p.2 else lookupA rest v

def keysA (a : Assignment) : List Var := a.map Prod.fst

def valuesA (a : Assignment) : List Word := a.map Prod.snd

/-- Python `assignment[v] = w`. -/
def insertA : Assignment → Var → Word → Assignment
  | [], v, w => [(v, w)]
  | p :: rest, v, w => if p.1 = v then (v, w) :: rest else p :: insertA rest v w

/-- Python `assignment.pop(v)`. -/
def eraseA : Assignment → Var → Assignment
  | [], _ => []
  | p :: rest, v => if p.1 = v then rest else p :: eraseA rest v

/-- `CrosswordCreator.assignment_complete`. -/
def assignment_complete (cw : Crossword) (a : Assignment) : Bool :=
  a.length == cw.vars.length

/-- The conflict test for one ordered pair of assigned variables, as in the
body of `do_variable_assignments_conflict`. -/
def overlapConflict (cw : Crossword) (v : Var) (wv : Word) (u : Var) (wu : Word) : Bool :=
  match cw.overlaps v u with
  | some (i, j) => decide (charAt wv i ≠ charAt wu j)
  | none => false

/-- `CrosswordCreator.do_variable_assignments_conflict`. -/
def do_variable_assignments_conflict (cw : Crossword) (a : Assignment) : Bool :=
  a.any fun p => a.any fun q => decide (p.1 ≠ q.1) && overlapConflict cw p.1 p.2 q.1 q.2

/-- The key/value loop of `CrosswordCreator.consistent`: duplicate-value check
against the accumulated `assignment_values`, then variable-membership check. -/
def consistentLoop (cw : Crossword) : List (Var × Word) → List Word → Bool
  | [], _ => true
  | p :: rest, seen =>
    if p.2 ∈ seen then false
    else if p.1 ∉ cw.vars then false
    else consistentLoop cw rest (p.2 :: seen)

/-- `CrosswordCreator.consistent`. -/
def consistent (cw : Crossword) (a : Assignment) : Bool :=
  consistentLoop cw a [] && !do_variable_assignments_conflict cw a

/-- The domain store `self.domains`; each Python word set is carried as a
duplicate-free list. -/
abbrev Domains := Var → List Word

/-- `self.domains` right after `__init__`: every variable maps to a copy of the
dictionary. -/
def initDomains (cw : Crossword) : Domains := fun _ => cw.words

/-- `CrosswordCreator.enforce_node_consistency`: discard words whose length
differs from the variable's length. -/
def enforce_node_consistency (cw : Crossword) (d : Domains) : Domains :=
  fun v => if v ∈ cw.vars then (d v).filter (fun w => w.length = v.length) else d v

/-- `CrosswordCreator.revise`: returns the `revised` flag and the state of the
domain store after the call.  A word of `x` is kept when some word of `y` makes
the two-variable hypothetical assignment conflict-free. -/
def reviseKeep (cw : Crossword) (d : Domains) (x y : Var) : List Word :=
  (d x).filter fun wx =>
    decide (∃ wy ∈ d y, do_variable_assignments_conflict cw [(x, wx), (y, wy)] = false)

def revise (cw : Crossword) (d : Domains) (x y : Var) : Bool × Domains :=
  if x = y then (false, d)
  else match cw.overlaps x y with
  | none => (false, d)
  | some _ =>
    (decide (reviseKeep cw d x y ≠ d x), Function.update d x (reviseKeep cw d x y))

abbrev Arc := Var × Var

/-- The default worklist built by `ac3` when `arcs is None`. -/
def defaultArcs (cw : Crossword) : List Arc :=
  cw.vars.flatMap fun x => (neighbors cw x).map fun y => (x, y)

/-- The arcs appended after a successful revision of `(x, y)`:
`(arc[0], neighbor)` for each neighbor of `arc[0]` other than `arc[0]` and
`arc[1]`. -/
def enqueueArcs (cw : Crossword) (x y : Var) : List Arc :=
  ((neighbors cw x).filter fun z => decide (z ≠ x) && decide (z ≠ y)).map fun z => (x, z)

/-- The worklist loop of `CrosswordCreator.ac3`, fuelled; `none` is fuel
exhaustion. -/
def ac3Run (cw : Crossword) : Nat → List Arc → Domains → Option (Bool × Domains)
  | 0, _, _ => none
  | _ + 1, [], d => some (true, d)
  | fuel + 1, (x, y) :: rest, d =>
    if (revise cw d x y).1 then
      if (revise cw d x y).2 x = [] then some (false, (revise cw d x y).2)
      else ac3Run cw fuel (rest ++ enqueueArcs cw x y) (revise cw d x y).2
    else ac3Run cw fuel rest (revise cw d x y).2

/-- Total number of candidate words over the variable list. -/
def totalSize (cw : Crossword) (d : Domains) : Nat :=
  (cw.vars.map fun v => (d v).length).sum

/-- `CrosswordCreator.ac3`: the optional `arcs` argument defaults to all
neighbor arcs.  The fuel bound dominates the worklist measure. -/
def ac3 (cw : Crossword) (d : Domains) (arcs : Option (List Arc)) :
    Option (Bool × Domains) :=
  ac3Run cw ((arcs.getD (defaultArcs cw)).length + (cw.vars.length + 1) * totalSize cw d + 1)
    (arcs.getD (defaultArcs cw)) d

/-- The list built by the loop of `select_unassigned_variable`. -/
def unassignedVars (cw : Crossword) (a : Assignment) : List Var :=
  cw.vars.filter fun v => (lookupA a v).isNone

/-- `CrosswordCreator.select_unassigned_variable`: `random.choice` over the
unassigned variables, abstracted by the choice function `sel`; `random.choice`
raises on an empty list. -/
def select_unassigned_variable (cw : Crossword) (sel : List Var → Option Var)
    (a : Assignment) : Option Var :=
  if (unassignedVars cw a).isEmpty then none else sel (unassignedVars cw a)

/-- A resolution of `random.choice`: on a nonempty list it returns some element
of the list. -/
def SelOk (sel : List Var → Option Var) : Prop :=
  ∀ l, l ≠ [] → ∃ v, sel l = some v ∧ v ∈ l

/-- `CrosswordCreator.order_domain_values`: the body unconditionally raises
`NotImplementedError`, so no ordering is ever produced. -/
def order_domain_values (_cw : Crossword) (_v : Var) (_a : Assignment) :
    Option (List Word) := none

/-- The `for value in self.domains[variable]` loop of `backtrack`.  The guard
`value not in assignment` compares a word against the Variable keys of the
dict, hence always passes.  After the recursive call the loop checks
completeness and consistency of the mutated dict, returns on success, and pops
`variable` otherwise. -/
def tryValues (cw : Crossword)
    (next : Assignment → Option (Option Assignment × Assignment)) (v : Var) :
    List Word → Assignment → Option (Option Assignment × Assignment)
  | [], a => some (none, a)
  | w :: ws, a =>
    match next (insertA a v w) with
    | none => none
    | some (result, s) =>
      if assignment_complete cw s && consistent cw s then some (result, s)
      else tryValues cw next v ws (eraseA s v)

/-- `CrosswordCreator.backtrack`: the inner `Option` is the Python return value
and the second component is the final state of the mutable `assignment`. -/
def backtrack (cw : Crossword) (sel : List Var → Option Var) (d : Domains) :
    Nat → Assignment → Option (Option Assignment × Assignment)
  | 0, _ => none
  | fuel + 1, a =>
    if assignment_complete cw a then some (some a, a)
    else
      match select_unassigned_variable cw sel a with
      | none => none
      | some v => tryValues cw (backtrack cw sel d fuel) v (d v) a

/-- `CrosswordCreator.solve`: node consistency, then `ac3` (whose Boolean
result is discarded, as in the source), then backtracking from the empty
assignment. -/
def solve (cw : Crossword) (sel : List Var → Option Var) :
    Option (Option Assignment × Assignment) :=
  match ac3 cw (enforce_node_consistency cw (initDomains cw)) none with
  | none => none
  | some (_, d2) => backtrack cw sel d2 (cw.vars.length + 1) []

/-! ### Claim-side predicates -/

/-- Full arc consistency of a domain store: for every ordered pair of puzzle
variables with a defined overlap, every remaining word of the first agrees at
the overlap with some remaining word of the second. -/
def arcConsistentB (cw : Crossword) (d : Domains) : Bool :=
  cw.vars.all fun x => cw.vars.all fun y =>
    match cw.overlaps x y with
    | some (i, j) => (d x).all fun wx => (d y).any fun wy => charAt wx i == charAt wy j
    | none => true

/-- Modelled from the spec: the least-constraining-value count of a candidate
word `w` for variable `v` — the number of neighboring unassigned variables
whose current domain contains that same word. -/
def lcvCount (cw : Crossword) (d : Domains) (a : Assignment) (v : Var) (w : Word) : Nat :=
  ((neighbors cw v).filter fun z => (lookupA a z).isNone && decide (w ∈ d z)).length

/-! ### Concrete instances used by witnesses and counterexamples -/

/-- One resolution of `random.choice`: take the first element. -/
def headSel : List Var → Option Var := fun l => l.head?

/-- Single slot of length 3. -/
def vA : Var := ⟨0, 0, false, 3⟩

/-- One-variable puzzle with a fitting word. -/
def cwW : Crossword where
  vars := [vA]
  words := [['c', 'a', 't'], ['b', 'e']]
  overlaps := fun _ _ => none

/-- An empty domain store. -/
def dU : Domains := fun _ => []

def x3 : Var := ⟨0, 0, false, 2⟩
def y3 : Var := ⟨0, 0, true, 3⟩
def z3 : Var := ⟨2, 0, true, 4⟩

/-- Three-slot puzzle exhibiting the wrong re-enqueue direction of `ac3`:
`x3` crosses `y3` at `x3[0] = y3[0]` and crosses `z3` at `x3[1] = z3[0]`. -/
def cw3 : Crossword where
  vars := [z3, y3, x3]
  words := [['b', 'a'], ['d', 'c'], ['d', 'd', 'd'], ['a', 'b', 'c', 'd'],
    ['c', 'b', 'b', 'b']]
  overlaps := fun u v =>
    if u = x3 ∧ v = y3 then some (0, 0)
    else if u = y3 ∧ v = x3 then some (0, 0)
    else if u = x3 ∧ v = z3 then some (1, 0)
    else if u = z3 ∧ v = x3 then some (0, 1)
    else none

/-- The length-filtered domains of `cw3`. -/
def d3 : Domains := enforce_node_consistency cw3 (initDomains cw3)

def xT : Var := ⟨0, 0, false, 2⟩
def yT : Var := ⟨0, 0, true, 3⟩

/-- Two compatible crossing slots. -/
def cwT : Crossword where
  vars := [xT, yT]
  words := [['a', 'b'], ['a', 'c', 'e']]
  overlaps := fun u v =>
    if u = xT ∧ v = yT then some (0, 0)
    else if u = yT ∧ v = xT then some (0, 0)
    else none

/-- The length-filtered domains of `cwT`. -/
def dT1 : Domains := enforce_node_consistency cwT (initDomains cwT)

def xE : Var := ⟨0, 0, false, 2⟩
def yE : Var := ⟨0, 0, true, 3⟩

/-- Two crossing slots whose dictionary fits neither slot length. -/
def cwE : Crossword where
  vars := [xE, yE]
  words := [['q']]
  overlaps := fun u v =>
    if u = xE ∧ v = yE then some (1, 0)
    else if u = yE ∧ v = xE then some (0, 1)
    else none

/-- The length-filtered domains of `cwE` (both empty). -/
def dE : Domains := enforce_node_consistency cwE (initDomains cwE)

def xF : Var := ⟨0, 0, false, 2⟩
def yF : Var := ⟨0, 0, true, 3⟩

/-- Two crossing slots with nonempty but incompatible length-filtered
domains. -/
def cwF : Crossword where
  vars := [xF, yF]
  words := [['a', 'b'], ['c', 'd', 'e']]
  overlaps := fun u v =>
    if u = xF ∧ v = yF then some (0, 0)
    else if u = yF ∧ v = xF then some (0, 0)
    else none

/-- The length-filtered domains of `cwF`. -/
def dF : Domains := enforce_node_consistency cwF (initDomains cwF)

def v51 : Var := ⟨0, 0, false, 2⟩
def v52 : Var := ⟨3, 0, false, 3⟩

/-- Two non-overlapping slots whose length-filtered domain sizes differ. -/
def cw5 : Crossword where
  vars := [v51, v52]
  words := [['a', 'b'], ['a', 'b', 'c'], ['a', 'b', 'd']]
  overlaps := fun _ _ => none

/-- The length-filtered domains of `cw5`. -/
def d5 : Domains := enforce_node_consistency cw5 (initDomains cw5)

def vC : Var := ⟨0, 0, false, 2⟩
def uC : Var := ⟨0, 0, true, 2⟩

/-- Two crossing slots used to compare the search's value order with the
least-constraining-value order. -/
def cwC : Crossword where
  vars := [vC, uC]
  words := [['a', 'b'], ['c', 'd']]
  overlaps := fun u v =>
    if u = vC ∧ v = uC then some (0, 0)
    else if u = uC ∧ v = vC then some (0, 0)
    else none

/-- A pruned domain store for `cwC`: the neighbor `uC` retains only one of the
two candidate words of `vC`. -/
def dC : Domains := fun v => if v = vC then [['a', 'b'], ['c', 'd']] else [['a', 'b']]

def v10 : Var := ⟨0, 0, false, 3⟩
def k10 : Var := ⟨5, 5, false, 2⟩

/-- One-slot puzzle; `k10` is not one of its variables. -/
def cw10 : Crossword where
  vars := [v10]
  words := [['c', 'a', 't']]
  overlaps := fun _ _ => none

/-! ### Association-list lemmas -/

theorem selOk_headSel : SelOk headSel := by
  intro l hl
  cases l with
  | nil => exact absurd rfl hl
  | cons a t => exact ⟨a, rfl, by simp⟩

theorem lookupA_eq_none_iff {a : Assignment} {v : Var} :
    lookupA a v = none ↔ ∀ p ∈ a, p.1 ≠ v := by
  induction a with
  | nil => simp [lookupA]
  | cons p rest ih =>
    by_cases h : p.1 = v <;> simp [lookupA, h, ih]

theorem mem_of_lookupA {a : Assignment} {v : Var} {w : Word}
    (h : lookupA a v = some w) : (v, w) ∈ a := by
  induction a with
  | nil => simp [lookupA] at h
  | cons p rest ih =>
    rw [lookupA] at h
    split at h
    · rename_i hp
      obtain rfl : p.2 = w := by injection h
      subst hp
      rw [Prod.mk.eta]
      exact List.mem_cons_self _ _
    · exact List.mem_cons_of_mem _ (ih h)

theorem lookupA_of_mem_keys {a : Assignment} {v : Var}
    (h : v ∈ keysA a) : ∃ w, lookupA a v = some w := by
  induction a with
  | nil => simp [keysA] at h
  | cons p rest ih =>
    by_cases hp : p.1 = v
    · exact ⟨p.2, by simp [lookupA, hp]⟩
    · simp only [keysA, List.map_cons, List.mem_cons] at h
      rcases h with h | h
      · exact absurd h.symm hp
      · obtain ⟨w, hw⟩ := ih h
        exact ⟨w, by simp [lookupA, hp, hw]⟩

theorem keysA_mem_of_lookupA {a : Assignment} {v : Var} {w : Word}
    (h : lookupA a v = some w) : v ∈ keysA a := by
  have := mem_of_lookupA h
  exact List.mem_map_of_mem Prod.fst this

theorem insertA_eq_append {a : Assignment} {v : Var} {w : Word}
    (h : lookupA a v = none) : insertA a v w = a ++ [(v, w)] := by
  induction a with
  | nil => simp [insertA]
  | cons p rest ih =>
    rw [lookupA] at h
    split at h
    · simp at h
    · rename_i hp
      simp [insertA, hp, ih h]

theorem eraseA_append {a : Assignment} {v : Var} {w : Word}
    (h : lookupA a v = none) : eraseA (a ++ [(v, w)]) v = a := by
  induction a with
  | nil => simp [eraseA]
  | cons p rest ih =>
    rw [lookupA] at h
    split at h
    · simp at h
    · rename_i hp
      simp [eraseA, hp, ih h]

theorem eraseA_insertA {a : Assignment} {v : Var} {w : Word}
    (h : lookupA a v = none) : eraseA (insertA a v w) v = a := by
  rw [insertA_eq_append h, eraseA_append h]

theorem keysA_insertA {a : Assignment} {v : Var} {w : Word}
    (h : lookupA a v = none) : keysA (insertA a v w) = keysA a ++ [v] := by
  rw [insertA_eq_append h]
  simp [keysA]

/-! ### Characterizations of the Boolean checks -/

theorem assignment_complete_iff {cw : Crossword} {a : Assignment} :
    assignment_complete cw a = true ↔ a.length = cw.vars.length := by
  simp [assignment_complete]

theorem overlapConflict_eq_false_iff {cw : Crossword} {v u : Var} {wv wu : Word} :
    overlapConflict cw v wv u wu = false ↔
      ∀ i j, cw.overlaps v u = some (i, j) → charAt wv i = charAt wu j := by
  unfold overlapConflict
  rcases h : cw.overlaps v u with _ | ⟨i, j⟩ <;> simp [h]

theorem pairCheck_eq_false_iff {cw : Crossword} {p q : Var × Word} :
    (decide (p.1 ≠ q.1) && overlapConflict cw p.1 p.2 q.1 q.2) = false ↔
      (p.1 ≠ q.1 →
        ∀ i j, cw.overlaps p.1 q.1 = some (i, j) → charAt p.2 i = charAt q.2 j) := by
  by_cases hpq : p.1 = q.1
  · simp [hpq]
  · simp only [hpq, ne_eq, not_false_iff, decide_true_eq_true, decide_True,
      Bool.true_and, forall_true_left]
    rw [overlapConflict_eq_false_iff]

theorem conflict_eq_false_iff {cw : Crossword} {a : Assignment} :
    do_variable_assignments_conflict cw a = false ↔
      ∀ p ∈ a, ∀ q ∈ a, p.1 ≠ q.1 →
        ∀ i j, cw.overlaps p.1 q.1 = some (i, j) → charAt p.2 i = charAt q.2 j := by
  unfold do_variable_assignments_conflict
  rw [List.any_eq_false]
  constructor
  · intro h p hp q hq hpq i j hov
    have h1 := Bool.eq_false_iff.mpr (h p hp)
    rw [List.any_eq_false] at h1
    have h2 := Bool.eq_false_iff.mpr (h1 q hq)
    exact pairCheck_eq_false_iff.mp h2 hpq i j hov
  · intro h p hp
    rw [Bool.not_eq_true, List.any_eq_false]
    intro q hq
    rw [Bool.not_eq_true, pairCheck_eq_false_iff]
    intro hpq i j hov
    exact h p hp q hq hpq i j hov

theorem consistentLoop_eq_true_iff {cw : Crossword} {l : List (Var × Word)}
    {seen : List Word} :
    consistentLoop cw l seen = true ↔
      (l.map Prod.snd).Nodup ∧ (∀ w ∈ l.map Prod.snd, w ∉ seen) ∧
        ∀ p ∈ l, p.1 ∈ cw.vars := by
  induction l generalizing seen with
  | nil => simp [consistentLoop]
  | cons p rest ih =>
    rw [consistentLoop]
    by_cases h1 : p.2 ∈ seen
    · simp only [if_pos h1]
      constructor
      · intro h
        exact absurd h (by simp)
      · rintro ⟨-, h2, -⟩
        exact absurd h1 (h2 p.2 (by simp))
    · rw [if_neg h1]
      by_cases h2 : p.1 ∈ cw.vars
      · rw [if_neg (by simpa using h2), ih]
        constructor
        · rintro ⟨hn, hs, hv⟩
          refine ⟨?_, ?_, ?_⟩
          · simp only [List.map_cons, List.nodup_cons]
            exact ⟨fun hmem => (hs _ hmem (by simp)), hn⟩
          · intro w hw
            simp only [List.map_cons, List.mem_cons] at hw
            rcases hw with rfl | hw
            · exact h1
            · intro hmem
              exact hs w hw (by simp [hmem])
          · intro q hq
            rcases List.mem_cons.mp hq with rfl | hq
            · exact h2
            · exact hv q hq
        · rintro ⟨hn, hs, hv⟩
          simp only [List.map_cons, List.nodup_cons] at hn
          refine ⟨hn.2, ?_, ?_⟩
          · intro w hw
            simp only [List.mem_cons]
            push_neg
            refine ⟨?_, hs w (by simp [hw])⟩
            rintro rfl
            exact hn.1 hw
          · intro q hq
            exact hv q (List.mem_cons_of_mem _ hq)
      · simp only [if_pos (by simpa using h2)]
        constructor
        · intro h
          exact absurd h (by simp)
        · rintro ⟨-, -, hv⟩
          exact absurd (hv p (by simp)) h2

theorem consistent_eq_true_iff {cw : Crossword} {a : Assignment} :
    consistent cw a = true ↔
      (valuesA a).Nodup ∧ (∀ p ∈ a, p.1 ∈ cw.vars) ∧
        do_variable_assignments_conflict cw a = false := by
  unfold consistent
  rw [Bool.and_eq_true, consistentLoop_eq_true_iff, Bool.not_eq_true']
  unfold valuesA
  simp only [List.not_mem_nil, not_false_iff, imp_true_iff, true_and]
  tauto

/-! ### Lemmas about `revise` and the `ac3` worklist loop -/

theorem revise_snd_cases (cw : Crossword) (d : Domains) (x y : Var) :
    (revise cw d x y).2 = d ∨
      (revise cw d x y).2 = Function.update d x (reviseKeep cw d x y) := by
  unfold revise
  by_cases hxy : x = y
  · simp [hxy]
  · rcases ho : cw.overlaps x y with _ | o <;> simp [hxy, ho]

theorem revise_subset (cw : Crossword) (d : Domains) (x y v : Var) :
    (revise cw d x y).2 v ⊆ d v := by
  rcases revise_snd_cases cw d x y with h | h <;> rw [h]
  · exact fun _ hm => hm
  · rw [Function.update_apply]
    split
    · rename_i hv
      subst hv
      exact fun w hw => List.mem_of_mem_filter hw
    · exact fun _ hm => hm

theorem revise_snd_of_ne {cw : Crossword} {d : Domains} {x y : Var} (v : Var)
    (hv : v ≠ x) : (revise cw d x y).2 v = d v := by
  rcases revise_snd_cases cw d x y with h | h <;> rw [h]
  rw [Function.update_apply, if_neg hv]

theorem revise_eq_of_flag_false {cw : Crossword} {d : Domains} {x y : Var}
    (h : (revise cw d x y).1 = false) : (revise cw d x y).2 = d := by
  unfold revise at h ⊢
  by_cases hxy : x = y
  · simp [hxy]
  · rcases ho : cw.overlaps x y with _ | o
    · simp [hxy, ho]
    · simp only [hxy, ho, if_neg, ite_false, decide_eq_false_iff_not, not_not] at h
      simp [hxy, ho, h, Function.update_eq_self]

theorem revise_flag_true_of_ne {cw : Crossword} {d : Domains} {x y : Var}
    (hne : reviseKeep cw d x y ≠ d x) (hxy : x ≠ y) {o : Nat × Nat}
    (ho : cw.overlaps x y = some o) : (revise cw d x y).1 = true := by
  simp [revise, hxy, ho, hne]

theorem revise_snd_of_overlap {cw : Crossword} {d : Domains} {x y : Var}
    (hxy : x ≠ y) {o : Nat × Nat} (ho : cw.overlaps x y = some o) :
    (revise cw d x y).2 = Function.update d x (reviseKeep cw d x y) := by
  simp [revise, hxy, ho]

/-- When no word of `x` has a compatible partner in `y`, `reviseKeep` empties
the domain of `x`. -/
theorem reviseKeep_eq_nil {cw : Crossword} {d : Domains} {x y : Var}
    (h : ∀ wx ∈ d x, ∀ wy ∈ d y,
      do_variable_assignments_conflict cw [(x, wx), (y, wy)] = true) :
    reviseKeep cw d x y = [] := by
  unfold reviseKeep
  rw [List.filter_eq_nil_iff]
  intro wx hwx
  simp only [decide_eq_true_eq, not_exists, not_and]
  intro wy hwy
  simp [h wx hwx wy hwy]

theorem enqueueArcs_fst {cw : Crossword} {x y : Var} :
    ∀ p ∈ enqueueArcs cw x y, p.1 = x := by
  intro p hp
  unfold enqueueArcs at hp
  obtain ⟨z, -, rfl⟩ := List.mem_map.mp hp
  rfl

theorem defaultArcs_fst {cw : Crossword} :
    ∀ p ∈ defaultArcs cw, p.1 ∈ cw.vars := by
  intro p hp
  unfold defaultArcs at hp
  obtain ⟨x, hx, hp⟩ := List.mem_flatMap.mp hp
  obtain ⟨z, -, rfl⟩ := List.mem_map.mp hp
  exact hx

theorem mem_defaultArcs {cw : Crossword} {x y : Var} (hx : x ∈ cw.vars)
    (hy : y ∈ cw.vars) (ho : (cw.overlaps x y).isSome) :
    (x, y) ∈ defaultArcs cw := by
  unfold defaultArcs
  rw [List.mem_flatMap]
  refine ⟨x, hx, ?_⟩
  rw [List.mem_map]
  refine ⟨y, ?_, rfl⟩
  unfold neighbors
  rw [List.mem_filter]
  exact ⟨hy, ho⟩

theorem ac3Run_subset (cw : Crossword) :
    ∀ (fuel : Nat) (q : List Arc) (d : Domains) (b : Bool) (d' : Domains),
      ac3Run cw fuel q d = some (b, d') → ∀ v, d' v ⊆ d v := by
  intro fuel
  induction fuel with
  | zero =>
    intro q d b d' h
    simp [ac3Run] at h
  | succ fuel ih =>
    rintro (_ | ⟨⟨x, y⟩, rest⟩) d b d' h v
    · simp only [ac3Run, Option.some.injEq, Prod.mk.injEq] at h
      obtain ⟨-, rfl⟩ := h
      exact fun w hw => hw
    · rw [ac3Run] at h
      split at h
      · split at h
        · simp only [Option.some.injEq, Prod.mk.injEq] at h
          obtain ⟨-, rfl⟩ := h
          exact revise_subset cw d x y v
        · exact fun w hw => revise_subset cw d x y v (ih _ _ _ _ h v hw)
      · exact fun w hw => revise_subset cw d x y v (ih _ _ _ _ h v hw)

theorem ac3Run_true_nonempty (cw : Crossword) :
    ∀ (fuel : Nat) (q : List Arc) (d : Domains) (d' : Domains),
      ac3Run cw fuel q d = some (true, d') →
        ∀ v, d v ≠ [] → d' v ≠ [] := by
  intro fuel
  induction fuel with
  | zero =>
    intro q d d' h
    simp [ac3Run] at h
  | succ fuel ih =>
    rintro (_ | ⟨⟨x, y⟩, rest⟩) d d' h v hv
    · simp only [ac3Run, Option.some.injEq, Prod.mk.injEq] at h
      obtain ⟨-, rfl⟩ := h
      exact hv
    · rw [ac3Run] at h
      split at h
      · split at h
        · simp at h
        · rename_i hne
          refine ih _ _ _ h v ?_
          by_cases hvx : v = x
          · subst hvx
            exact hne
          · rw [revise_snd_of_ne v hvx]
            exact hv
      · refine ih _ _ _ h v ?_
        rename_i hflag
        rw [revise_eq_of_flag_false (Bool.eq_false_iff.mpr hflag)]
        exact hv

theorem ac3Run_false_empty (cw : Crossword) :
    ∀ (fuel : Nat) (q : List Arc) (d : Domains) (d' : Domains),
      (∀ p ∈ q, p.1 ∈ cw.vars) →
      ac3Run cw fuel q d = some (false, d') →
        ∃ v ∈ cw.vars, d' v = [] := by
  intro fuel
  induction fuel with
  | zero =>
    intro q d d' hq h
    simp [ac3Run] at h
  | succ fuel ih =>
    rintro (_ | ⟨⟨x, y⟩, rest⟩) d d' hq h
    · simp [ac3Run] at h
    · rw [ac3Run] at h
      split at h
      · split at h
        · simp only [Option.some.injEq, Prod.mk.injEq] at h
          obtain ⟨-, rfl⟩ := h
          rename_i hemp
          exact ⟨x, hq (x, y) (by simp), hemp⟩
        · refine ih _ _ _ ?_ h
          intro p hp
          rcases List.mem_append.mp hp with hp | hp
          · exact hq p (List.mem_cons_of_mem _ hp)
          · rw [enqueueArcs_fst p hp]
            exact hq (x, y) (by simp)
      · refine ih _ _ _ ?_ h
        intro p hp
        exact hq p (List.mem_cons_of_mem _ hp)

/-- A pending incompatible arc forces the run to report failure: if `(x, y)` is
still in the worklist, `x` has a nonempty domain, and no word that `x` could
still hold is compatible with any word `y` could still hold, then the run
cannot return `True`. -/
theorem ac3Run_force (cw : Crossword) {x y : Var} {o : Nat × Nat}
    (hxy : x ≠ y) (ho : cw.overlaps x y = some o) (dx0 dy0 : List Word)
    (hincomp : ∀ wx ∈ dx0, ∀ wy ∈ dy0,
      do_variable_assignments_conflict cw [(x, wx), (y, wy)] = true) :
    ∀ (fuel : Nat) (q : List Arc) (d : Domains) (b : Bool) (d' : Domains),
      (x, y) ∈ q → d x ≠ [] →
      (∀ wx ∈ d x, wx ∈ dx0) → (∀ wy ∈ d y, wy ∈ dy0) →
      ac3Run cw fuel q d = some (b, d') → b = false := by
  intro fuel
  induction fuel with
  | zero =>
    intro q d b d' hmem hne hsx hsy h
    simp [ac3Run] at h
  | succ fuel ih =>
    rintro (_ | ⟨⟨a, c⟩, rest⟩) d b d' hmem hne hsx hsy h
    · simp at hmem
    · by_cases hac : (a, c) = (x, y)
      · obtain ⟨rfl, rfl⟩ := Prod.mk.injEq .. ▸ hac
        have hkeep : reviseKeep cw d a c = [] :=
          reviseKeep_eq_nil fun wx hwx wy hwy => hincomp wx (hsx wx hwx) wy (hsy wy hwy)
        have hflag : (revise cw d a c).1 = true :=
          revise_flag_true_of_ne (by rw [hkeep]; exact fun hh => hne hh.symm) hxy ho
        have hsnd : (revise cw d a c).2 a = [] := by
          rw [revise_snd_of_overlap hxy ho, Function.update_same, hkeep]
        rw [ac3Run, if_pos hflag, if_pos hsnd] at h
        simp only [Option.some.injEq, Prod.mk.injEq] at h
        exact h.1.symm
      · have hmem' : (x, y) ∈ rest := by
          rcases List.mem_cons.mp hmem with hh | hh
          · exact absurd hh.symm hac
          · exact hh
        rw [ac3Run] at h
        split at h
        · split at h
          · simp only [Option.some.injEq, Prod.mk.injEq] at h
            exact h.1.symm
          · rename_i hemp
            refine ih _ _ _ _ (List.mem_append_left _ hmem') ?_ ?_ ?_ h
            · by_cases hax : x = a
              · subst hax
                exact hemp
              · rw [revise_snd_of_ne x fun hh => hax hh]
                exact hne
            · intro wx hwx
              exact hsx wx (revise_subset cw d a c x hwx)
            · intro wy hwy
              exact hsy wy (revise_subset cw d a c y hwy)
        · rename_i hflag
          rw [revise_eq_of_flag_false (Bool.eq_false_iff.mpr hflag)] at h
          exact ih _ _ _ _ hmem' hne hsx hsy h

/-- The run fails immediately, with no further queue processing, at the first
revision that empties a domain. -/
theorem ac3Run_immediate (cw : Crossword) (fuel : Nat) (x y : Var)
    (rest : List Arc) (d : Domains) (hflag : (revise cw d x y).1 = true)
    (hemp : (revise cw d x y).2 x = []) :
    ac3Run cw (fuel + 1) ((x, y) :: rest) d = some (false, (revise cw d x y).2) := by
  rw [ac3Run, if_pos hflag, if_pos hemp]

/-! ### Lemmas about the backtracking search -/

theorem select_mem {cw : Crossword} {sel : List Var → Option Var} {a : Assignment}
    {v : Var} (hsel : SelOk sel)
    (h : select_unassigned_variable cw sel a = some v) :
    v ∈ cw.vars ∧ lookupA a v = none := by
  unfold select_unassigned_variable at h
  split at h
  · exact absurd h (by simp)
  · rename_i hne
    obtain ⟨v', hv', hmem⟩ :=
      hsel (unassignedVars cw a) (by simpa [List.isEmpty_iff] using hne)
    rw [h] at hv'
    have hvv : v = v' := by injection hv'
    subst hvv
    rw [unassignedVars, List.mem_filter] at hmem
    exact ⟨hmem.1, by simpa [Option.isNone_iff_eq_none] using hmem.2⟩

/-- Shape of the per-value loop of `backtrack`: assuming the recursive call
restores the dict on failure and only reports success states that passed a
completeness-and-consistency gate (or were already complete on entry), the
loop does the same, and in addition every reported success passed the gate. -/
theorem tv_shape (cw : Crossword)
    (next : Assignment → Option (Option Assignment × Assignment)) (v : Var)
    (Hnext : ∀ a res s, next a = some (res, s) →
      (res = none → s = a ∧ assignment_complete cw a = false) ∧
      (∀ r, res = some r → r = s ∧
        ((s = a ∧ assignment_complete cw a = true) ∨
          (assignment_complete cw s && consistent cw s) = true))) :
    ∀ (ws : List Word) (a : Assignment) (res : Option Assignment) (s : Assignment),
      lookupA a v = none →
      tryValues cw next v ws a = some (res, s) →
      (res = none → s = a) ∧
      (∀ r, res = some r → r = s ∧
        (assignment_complete cw s && consistent cw s) = true) := by
  intro ws
  induction ws with
  | nil =>
    intro a res s hla h
    simp only [tryValues, Option.some.injEq, Prod.mk.injEq] at h
    obtain ⟨rfl, rfl⟩ := h
    exact ⟨fun _ => rfl, fun r hr => by simp at hr⟩
  | cons w ws ih =>
    intro a res s hla h
    rw [tryValues] at h
    split at h
    · simp at h
    · rename_i res1 s2 hnext
      have hprops := Hnext _ _ _ hnext
      split at h
      · rename_i hgate
        simp only [Option.some.injEq, Prod.mk.injEq] at h
        obtain ⟨rfl, rfl⟩ := h
        constructor
        · rintro rfl
          obtain ⟨hseq, hcompl⟩ := hprops.1 rfl
          rw [Bool.and_eq_true] at hgate
          rw [hseq, hcompl] at hgate
          simp at hgate
        · intro r hr
          exact ⟨(hprops.2 r hr).1, hgate⟩
      · rename_i hgate
        have hs2 : s2 = insertA a v w := by
          rcases hres1 : res1 with _ | r
        -- failed recursion restores; a success that fails the gate is the
        -- base case of the recursion, whose state is its entry state
          · exact (hprops.1 hres1).1
          · rcases (hprops.2 r hres1).2 with ⟨heq, -⟩ | hgate'
            · exact heq
            · exact absurd hgate' hgate
        rw [hs2, eraseA_insertA hla] at h
        exact ih a res s hla h

/-- Shape of `backtrack`: a failed call restores the dict to its entry state,
and a returned solution is the final dict state, which either passed the
completeness-and-consistency gate or was already complete at entry. -/
theorem bk_shape {cw : Crossword} {sel : List Var → Option Var} (d : Domains)
    (hsel : SelOk sel) :
    ∀ (fuel : Nat) (a : Assignment) (res : Option Assignment) (s : Assignment),
      backtrack cw sel d fuel a = some (res, s) →
      (res = none → s = a ∧ assignment_complete cw a = false) ∧
      (∀ r, res = some r → r = s ∧
        ((s = a ∧ assignment_complete cw a = true) ∨
          (assignment_complete cw s && consistent cw s) = true)) := by
  intro fuel
  induction fuel with
  | zero =>
    intro a res s h
    simp [backtrack] at h
  | succ fuel ih =>
    intro a res s h
    rw [backtrack] at h
    split at h
    · rename_i hcompl
      simp only [Option.some.injEq, Prod.mk.injEq] at h
      obtain ⟨rfl, rfl⟩ := h
      refine ⟨fun hh => by simp at hh, fun r hr => ?_⟩
      have har : a = r := by injection hr
      subst har
      exact ⟨rfl, Or.inl ⟨rfl, hcompl⟩⟩
    · rename_i hcompl
      rcases hselv : select_unassigned_variable cw sel a with _ | v
      · rw [hselv] at h
        simp at h
      · rw [hselv] at h
        have hv := select_mem hsel hselv
        have := tv_shape cw (backtrack cw sel d fuel) v ih (d v) a res s hv.2 h
        refine ⟨fun hr => ⟨(this.1 hr), Bool.eq_false_iff.mpr hcompl⟩, ?_⟩
        intro r hr
        exact ⟨(this.2 r hr).1, Or.inr (this.2 r hr).2⟩

/-- Invariant of the search states reached from the empty assignment: keys are
distinct and are puzzle variables. -/
def GoodA (cw : Crossword) (a : Assignment) : Prop :=
  (keysA a).Nodup ∧ ∀ p ∈ a, p.1 ∈ cw.vars

theorem not_mem_keysA_of_lookupA {a : Assignment} {v : Var}
    (h : lookupA a v = none) : v ∉ keysA a := by
  intro hmem
  obtain ⟨w, hw⟩ := lookupA_of_mem_keys hmem
  rw [h] at hw
  exact Option.noConfusion hw

theorem mem_insertA {a : Assignment} {v : Var} {w : Word} {p : Var × Word}
    (hla : lookupA a v = none) (hp : p ∈ insertA a v w) :
    p ∈ a ∨ p = (v, w) := by
  rw [insertA_eq_append hla] at hp
  rcases List.mem_append.mp hp with hp | hp
  · exact Or.inl hp
  · exact Or.inr (by simpa using hp)

theorem goodA_insertA {cw : Crossword} {a : Assignment} {v : Var} {w : Word}
    (hg : GoodA cw a) (hv : v ∈ cw.vars) (hla : lookupA a v = none) :
    GoodA cw (insertA a v w) := by
  constructor
  · rw [keysA_insertA hla, List.nodup_append]
    refine ⟨hg.1, List.nodup_singleton v, ?_⟩
    intro u hu hu'
    obtain rfl : u = v := by simpa using hu'
    exact not_mem_keysA_of_lookupA hla hu
  · intro p hp
    rcases mem_insertA hla hp with hp | rfl
    · exact hg.2 p hp
    · exact hv

/-- Entry tracking for the per-value loop: every binding of the final state
was in the entry state or pairs a puzzle variable with one of its candidate
words. -/
theorem tv_entries (cw : Crossword)
    (next : Assignment → Option (Option Assignment × Assignment)) (v : Var)
    (d : Domains)
    (Hshape : ∀ a res s, next a = some (res, s) →
      (res = none → s = a ∧ assignment_complete cw a = false) ∧
      (∀ r, res = some r → r = s ∧
        ((s = a ∧ assignment_complete cw a = true) ∨
          (assignment_complete cw s && consistent cw s) = true)))
    (Hentries : ∀ a res s, next a = some (res, s) → GoodA cw a →
      GoodA cw s ∧ ∀ p ∈ s, p ∈ a ∨ (p.1 ∈ cw.vars ∧ p.2 ∈ d p.1)) :
    ∀ (ws : List Word) (a : Assignment) (res : Option Assignment) (s : Assignment),
      (∀ w ∈ ws, w ∈ d v) → v ∈ cw.vars → lookupA a v = none → GoodA cw a →
      tryValues cw next v ws a = some (res, s) →
      GoodA cw s ∧ ∀ p ∈ s, p ∈ a ∨ (p.1 ∈ cw.vars ∧ p.2 ∈ d p.1) := by
  intro ws
  induction ws with
  | nil =>
    intro a res s hws hv hla hg h
    simp only [tryValues, Option.some.injEq, Prod.mk.injEq] at h
    obtain ⟨rfl, rfl⟩ := h
    exact ⟨hg, fun p hp => Or.inl hp⟩
  | cons w ws ih =>
    intro a res s hws hv hla hg h
    rw [tryValues] at h
    split at h
    · simp at h
    · rename_i res1 s2 hnext
      have hg1 : GoodA cw (insertA a v w) := goodA_insertA hg hv hla
      have hent := Hentries _ _ _ hnext hg1
      have hmem : ∀ p ∈ s2, p ∈ a ∨ (p.1 ∈ cw.vars ∧ p.2 ∈ d p.1) := by
        intro p hp
        rcases hent.2 p hp with hp' | hp'
        · rcases mem_insertA hla hp' with hp'' | rfl
          · exact Or.inl hp''
          · exact Or.inr ⟨hv, hws w (by simp)⟩
        · exact Or.inr hp'
      split at h
      · simp only [Option.some.injEq, Prod.mk.injEq] at h
        obtain ⟨rfl, rfl⟩ := h
        exact ⟨hent.1, hmem⟩
      · rename_i hgate
        have hprops := Hshape _ _ _ hnext
        have hs2 : s2 = insertA a v w := by
          rcases hres1 : res1 with _ | r
          · exact (hprops.1 hres1).1
          · rcases (hprops.2 r hres1).2 with ⟨heq, -⟩ | hgate'
            · exact heq
            · exact absurd hgate' hgate
        rw [hs2, eraseA_insertA hla] at h
        exact ih a res s (fun u hu => hws u (by simp [hu])) hv hla hg h

theorem bk_entries {cw : Crossword} {sel : List Var → Option Var} (d : Domains)
    (hsel : SelOk sel) :
    ∀ (fuel : Nat) (a : Assignment) (res : Option Assignment) (s : Assignment),
      backtrack cw sel d fuel a = some (res, s) → GoodA cw a →
      GoodA cw s ∧ ∀ p ∈ s, p ∈ a ∨ (p.1 ∈ cw.vars ∧ p.2 ∈ d p.1) := by
  intro fuel
  induction fuel with
  | zero =>
    intro a res s h
    simp [backtrack] at h
  | succ fuel ih =>
    intro a res s h hg
    rw [backtrack] at h
    split at h
    · simp only [Option.some.injEq, Prod.mk.injEq] at h
      obtain ⟨-, rfl⟩ := h
      exact ⟨hg, fun p hp => Or.inl hp⟩
    · rcases hselv : select_unassigned_variable cw sel a with _ | v
      · rw [hselv] at h
        simp at h
      · rw [hselv] at h
        have hv := select_mem hsel hselv
        exact tv_entries cw (backtrack cw sel d fuel) v d (bk_shape d hsel fuel) ih
          (d v) a res s (fun _ hw => hw) hv.1 hv.2 hg h

theorem ac3_subset {cw : Crossword} {d : Domains} {arcs : Option (List Arc)}
    {b : Bool} {d' : Domains} (h : ac3 cw d arcs = some (b, d')) :
    ∀ v, d' v ⊆ d v :=
  ac3Run_subset cw _ _ _ _ _ h

theorem enforce_mem_length {cw : Crossword} {d : Domains} {v : Var} {w : Word}
    (hv : v ∈ cw.vars) (hw : w ∈ enforce_node_consistency cw d v) :
    w.length = v.length := by
  rw [enforce_node_consistency, if_pos hv, List.mem_filter] at hw
  simpa using hw.2

theorem goodA_nil {cw : Crossword} : GoodA cw [] :=
  ⟨List.nodup_nil, by simp⟩

theorem keysA_subset_vars {cw : Crossword} {a : Assignment} (hg : GoodA cw a) :
    keysA a ⊆ cw.vars := by
  intro u hu
  obtain ⟨p, hp, rfl⟩ := List.mem_map.mp hu
  exact hg.2 p hp

theorem keysA_perm_vars {cw : Crossword} {a : Assignment} (hg : GoodA cw a)
    (hlen : a.length = cw.vars.length) :
    (keysA a).Perm cw.vars := by
  refine (List.subperm_of_subset hg.1 (keysA_subset_vars hg)).perm_of_length_le ?_
  simp [keysA, hlen]

/-! ### Claim theorems -/

/-- C1: any assignment returned by `solve()` (backtracking from the empty
assignment after node and arc consistency), under any resolution of the random
variable selection, assigns a word to every puzzle variable, assigns
pairwise-distinct words, satisfies every defined overlap constraint, and maps
each variable to a word whose length equals that variable's length. -/
theorem solve_sound {cw : Crossword} {sel : List Var → Option Var}
    (hsel : SelOk sel) {res : Option Assignment} {s r : Assignment}
    (h : solve cw sel = some (res, s)) (hr : res = some r) :
    (∀ v ∈ cw.vars, ∃ w, lookupA r v = some w) ∧
    (valuesA r).Nodup ∧
    (∀ v u wv wu i j, lookupA r v = some wv → lookupA r u = some wu → v ≠ u →
      cw.overlaps v u = some (i, j) → charAt wv i = charAt wu j) ∧
    (∀ v w, lookupA r v = some w → w.length = v.length) := by
  subst hr
  rw [solve] at h
  split at h
  · simp at h
  · rename_i b d2 hac
    have hshape := (bk_shape d2 hsel _ _ _ _ h).2 r rfl
    obtain ⟨hrs, hcases⟩ := hshape
    subst hrs
    have hent := bk_entries d2 hsel _ _ _ _ h goodA_nil
    rcases hcases with ⟨hnil, hcompl⟩ | hgate
    · -- the base case: the entry assignment was already complete, hence the
      -- puzzle has no variables at all
      subst hnil
      have hvars : cw.vars = [] := by
        rw [assignment_complete_iff] at hcompl
        exact List.length_eq_zero.mp hcompl.symm
      refine ⟨?_, ?_, ?_, ?_⟩
      · intro v hv
        rw [hvars] at hv
        exact absurd hv (List.not_mem_nil v)
      · exact List.nodup_nil
      · intro v u wv wu i j hv
        exact absurd hv (by simp [lookupA])
      · intro v w hv
        exact absurd hv (by simp [lookupA])
    · rw [Bool.and_eq_true] at hgate
      have hcons := consistent_eq_true_iff.mp hgate.2
      have hgood : GoodA cw r := hent.1
      have hperm := keysA_perm_vars hgood (assignment_complete_iff.mp hgate.1)
      refine ⟨?_, hcons.1, ?_, ?_⟩
      · intro v hv
        exact lookupA_of_mem_keys (hperm.mem_iff.mpr hv)
      · intro v u wv wu i j hv hu hne hov
        exact conflict_eq_false_iff.mp hcons.2.2 (v, wv) (mem_of_lookupA hv)
          (u, wu) (mem_of_lookupA hu) hne i j hov
      · intro v w hw
        rcases hent.2 (v, w) (mem_of_lookupA hw) with hmem | ⟨hv, hd⟩
        · exact absurd hmem (List.not_mem_nil _)
        · exact enforce_mem_length hv (ac3_subset hac v hd)

/-- Witness for C1 at the one-variable puzzle `cwW`. -/
theorem solve_sound_witness :
    (∀ v ∈ cwW.vars, ∃ w, lookupA [(vA, ['c', 'a', 't'])] v = some w) ∧
    (∀ v w, lookupA [(vA, ['c', 'a', 't'])] v = some w → w.length = v.length) := by
  have h : solve cwW headSel =
      some (some [(vA, ['c', 'a', 't'])], [(vA, ['c', 'a', 't'])]) := by decide
  have hs := solve_sound selOk_headSel h rfl
  exact ⟨hs.1, hs.2.2.2⟩

/-- C8: `backtrack` mutates only the assignment (the domain store is threaded
through unchanged by the embedding, mirroring that the source never writes
`self.domains` during search): a call that returns `None` leaves the
assignment exactly as it was at entry, and a successful call leaves it equal
to the returned solution. -/
theorem backtrack_restores {cw : Crossword} {sel : List Var → Option Var}
    {d : Domains} {fuel : Nat} {a : Assignment} {res : Option Assignment}
    {s : Assignment} (hsel : SelOk sel)
    (h : backtrack cw sel d fuel a = some (res, s)) :
    (res = none → s = a) ∧ ∀ r, res = some r → s = r := by
  have hb := bk_shape d hsel fuel a res s h
  exact ⟨fun hr => (hb.1 hr).1, fun r hr => ((hb.2 r hr).1).symm⟩

/-- Witness for C8: a failing search on `cwW` with an empty domain store
returns the entry assignment unchanged. -/
theorem backtrack_restores_witness :
    backtrack cwW headSel dU 2 [] = some (none, []) ∧ ([] : Assignment) = [] := by
  have h : backtrack cwW headSel dU 2 [] = some (none, []) := by decide
  exact ⟨h, (backtrack_restores selOk_headSel h).1 rfl⟩

/-- C9: after `enforce_node_consistency` every word remaining in a puzzle
variable's domain has that variable's length, and running the pass twice
yields the same domains as running it once. -/
theorem enforce_node_consistency_spec (cw : Crossword) (d : Domains) :
    (∀ v ∈ cw.vars, ∀ w ∈ enforce_node_consistency cw d v, w.length = v.length) ∧
    enforce_node_consistency cw (enforce_node_consistency cw d) =
      enforce_node_consistency cw d := by
  constructor
  · intro v hv w hw
    exact enforce_mem_length hv hw
  · funext v
    by_cases hv : v ∈ cw.vars
    · rw [enforce_node_consistency, if_pos hv]
      apply List.filter_eq_self.mpr
      intro w hw
      rw [enforce_node_consistency, if_pos hv] at hw
      exact (List.mem_filter.mp hw).2
    · rw [enforce_node_consistency, if_neg hv, enforce_node_consistency, if_neg hv]

/-- Witness for C9: the surviving word of `cwW` has the slot's length. -/
theorem enforce_node_consistency_spec_witness :
    (['c', 'a', 't'] : Word).length = vA.length :=
  (enforce_node_consistency_spec cwW (initDomains cwW)).1 vA (by decide)
    (['c', 'a', 't']) (by decide)

/-- C10: `consistent` returns False for every assignment containing a key that
is not a puzzle variable, whatever the assigned words are; and it performs no
per-word length check — an assignment giving a genuine variable a word of the
wrong length passes. -/
theorem consistent_foreign_key :
    (∀ (cw : Crossword) (a : Assignment) (k : Var), k ∈ keysA a →
      k ∉ cw.vars → consistent cw a = false) ∧
    (consistent cw10 [(v10, ['a', 'b'])] = true ∧
      (['a', 'b'] : Word).length ≠ v10.length) := by
  refine ⟨?_, by decide, by decide⟩
  intro cw a k hk hnk
  apply Bool.eq_false_iff.mpr
  intro htrue
  obtain ⟨p, hp, rfl⟩ := List.mem_map.mp hk
  exact hnk ((consistent_eq_true_iff.mp htrue).2.1 p hp)

/-- Witness for C10: an assignment whose key is not a variable of `cw10` is
rejected. -/
theorem consistent_foreign_key_witness :
    consistent cw10 [(k10, ['a', 'b'])] = false :=
  consistent_foreign_key.1 cw10 [(k10, ['a', 'b'])] k10 (by decide) (by decide)

/-- C3 (code bug): on the concrete puzzle `cw3` with its length-filtered
domains, `ac3` with the default worklist returns True, yet the resulting
domains are not arc consistent — the arc from `z3` to `x3` is violated because
the wrong re-enqueue direction never rechecks it after the domain of `x3`
shrinks. -/
theorem ac3_true_not_arc_consistent :
    cw3.overlaps z3 x3 = some (0, 1) ∧
    (ac3 cw3 d3 none).map (fun p => (p.1, arcConsistentB cw3 p.2)) =
      some (true, false) :=
  ⟨by decide, by decide⟩

/-- C4 (code bug): at the step of the `cw3` run where `revise(x3, y3)` reports
a change and leaves the domain of `x3` nonempty, the arcs enqueued by `ac3`
are `(x3, z3)` — with `x3` in the first position — and `(z3, x3)` is not
enqueued. -/
theorem ac3_enqueue_direction :
    (revise cw3 d3 x3 y3).1 = true ∧ (revise cw3 d3 x3 y3).2 x3 ≠ [] ∧
    enqueueArcs cw3 x3 y3 = [(x3, z3)] ∧ (z3, x3) ∉ enqueueArcs cw3 x3 y3 :=
  ⟨by decide, by decide, by decide, by decide⟩

/-- C5 (code bug): `select_unassigned_variable` is `random.choice` over the
unassigned variables; a possible resolution returns `v52` although the
unassigned variable `v51` has a strictly smaller domain, violating the
minimum-remaining-values rule. -/
theorem select_ignores_heuristics :
    ∃ sel, SelOk sel ∧ select_unassigned_variable cw5 sel [] = some v52 ∧
      v51 ∈ unassignedVars cw5 [] ∧ (d5 v51).length < (d5 v52).length := by
  refine ⟨fun l => if v52 ∈ l then some v52 else l.head?, ?_, by decide, by decide,
    by decide⟩
  intro l hl
  by_cases hm : v52 ∈ l
  · exact ⟨v52, by simp [hm], hm⟩
  · cases l with
    | nil => exact absurd rfl hl
    | cons a t => exact ⟨a, by simp [hm], by simp⟩

/-- C6 (code bug): `order_domain_values` never produces an ordering (its body
raises), and the value order actually used by `backtrack` — the raw domain
list — is not in ascending least-constraining-value order on `cwC`: the word
tried first rules out more neighbor options than the word tried second. -/
theorem value_order_not_lcv :
    (∀ (cw : Crossword) (v : Var) (a : Assignment),
      order_domain_values cw v a = none) ∧
    dC vC = [['a', 'b'], ['c', 'd']] ∧
    lcvCount cwC dC [] vC ['c', 'd'] < lcvCount cwC dC [] vC ['a', 'b'] :=
  ⟨fun _ _ _ => rfl, by decide, by decide⟩

/-- Counterexample to C7 as stated: in `cwE` the two overlapping variables
have length-filtered domains with no compatible word pair (both are empty), yet
`ac3` with the default worklist returns True, not False. -/
theorem ac3_vacuous_failure_cex :
    cwE.overlaps xE yE = some (1, 0) ∧ dE xE = [] ∧ dE yE = [] ∧
    (∀ wx ∈ dE xE, ∀ wy ∈ dE yE, charAt wx 1 ≠ charAt wy 0) ∧
    (ac3 cwE dE none).map Prod.fst = some true :=
  ⟨by decide, by decide, by decide, by decide, by decide⟩

theorem conflict_pair_true {cw : Crossword} {x y : Var} {wx wy : Word} {i j : Nat}
    (hxy : x ≠ y) (ho : cw.overlaps x y = some (i, j))
    (hne : charAt wx i ≠ charAt wy j) :
    do_variable_assignments_conflict cw [(x, wx), (y, wy)] = true := by
  unfold do_variable_assignments_conflict
  rw [List.any_eq_true]
  refine ⟨(x, wx), by simp, ?_⟩
  rw [List.any_eq_true]
  refine ⟨(y, wy), by simp, ?_⟩
  rw [Bool.and_eq_true]
  exact ⟨by simpa using hxy, by simp [overlapConflict, ho, hne]⟩

/-- C7 (amended): (a) a terminating `ac3` run on the default worklist over
domains that are nonempty on every puzzle variable returns False iff it drove
some variable's domain empty; (b) for two overlapping puzzle variables whose
length-filtered domains contain no compatible word pair, at least one of the
two domains being nonempty, `ac3` on the default worklist returns False; (c)
the run fails immediately upon the first revision that empties a domain. -/
theorem ac3_failure_spec :
    (∀ (cw : Crossword) (d : Domains) (b : Bool) (d' : Domains),
      (∀ v ∈ cw.vars, d v ≠ []) → ac3 cw d none = some (b, d') →
      (b = false ↔ ∃ v ∈ cw.vars, d' v = [])) ∧
    (∀ (cw : Crossword) (x y : Var) (i j : Nat),
      x ∈ cw.vars → y ∈ cw.vars → x ≠ y →
      cw.overlaps x y = some (i, j) → cw.overlaps y x = some (j, i) →
      (∀ wx ∈ enforce_node_consistency cw (initDomains cw) x,
        ∀ wy ∈ enforce_node_consistency cw (initDomains cw) y,
          charAt wx i ≠ charAt wy j) →
      (enforce_node_consistency cw (initDomains cw) x ≠ [] ∨
        enforce_node_consistency cw (initDomains cw) y ≠ []) →
      ∀ (b : Bool) (d' : Domains),
        ac3 cw (enforce_node_consistency cw (initDomains cw)) none = some (b, d') →
        b = false) ∧
    (∀ (cw : Crossword) (fuel : Nat) (x y : Var) (rest : List Arc) (d : Domains),
      (revise cw d x y).1 = true → (revise cw d x y).2 x = [] →
      ac3Run cw (fuel + 1) ((x, y) :: rest) d =
        some (false, (revise cw d x y).2)) := by
  refine ⟨?_, ?_, ?_⟩
  · intro cw d b d' hne hac
    rw [ac3] at hac
    simp only [Option.getD_none] at hac
    constructor
    · rintro rfl
      exact ac3Run_false_empty cw _ _ _ _ defaultArcs_fst hac
    · rintro ⟨v, hv, hempty⟩
      cases b with
      | false => rfl
      | true =>
        exact absurd hempty (ac3Run_true_nonempty cw _ _ _ _ hac v (hne v hv))
  · intro cw x y i j hx hy hxy ho hsymm hincomp hnon b d' hac
    rw [ac3] at hac
    simp only [Option.getD_none] at hac
    rcases hnon with hnex | hney
    · refine ac3Run_force cw hxy ho
        (enforce_node_consistency cw (initDomains cw) x)
        (enforce_node_consistency cw (initDomains cw) y)
        (fun wx hwx wy hwy => conflict_pair_true hxy ho (hincomp wx hwx wy hwy))
        _ _ _ _ _ (mem_defaultArcs hx hy (by simp [ho])) hnex
        (fun w hw => hw) (fun w hw => hw) hac
    · refine ac3Run_force cw (Ne.symm hxy) hsymm
        (enforce_node_consistency cw (initDomains cw) y)
        (enforce_node_consistency cw (initDomains cw) x)
        (fun wy hwy wx hwx =>
          conflict_pair_true (Ne.symm hxy) hsymm (Ne.symm (hincomp wx hwx wy hwy)))
        _ _ _ _ _ (mem_defaultArcs hy hx (by simp [hsymm])) hney
        (fun w hw => hw) (fun w hw => hw) hac
  · intro cw fuel x y rest d hflag hemp
    exact ac3Run_immediate cw fuel x y rest d hflag hemp

/-- Witness for C7 at the incompatible nonempty puzzle `cwF`: `ac3` on the
length-filtered domains reports failure. -/
theorem ac3_failure_spec_witness :
    (ac3 cwF dF none).map Prod.fst = some false := by
  have hsome : (ac3 cwF dF none).isSome = true := by decide
  rcases hac : ac3 cwF dF none with _ | ⟨b, d'⟩
  · rw [hac] at hsome
    exact absurd hsome (by simp)
  · have hb := ac3_failure_spec.2.1 cwF xF yF 0 0 (by decide) (by decide)
      (by decide) (by decide) (by decide) (by decide) (by decide) b d' hac
    simp [hb]

/-! ### Completeness of the search -/

theorem consistent_eq_true_of_perm {cw : Crossword} {a b : Assignment}
    (hp : a.Perm b) (h : consistent cw a = true) : consistent cw b = true := by
  rw [consistent_eq_true_iff] at h ⊢
  refine ⟨((hp.map Prod.snd).nodup_iff).mp h.1, ?_, ?_⟩
  · intro p hpb
    exact h.2.1 p (hp.mem_iff.mpr hpb)
  · rw [conflict_eq_false_iff]
    intro p hpb q hqb hne i j ho
    exact conflict_eq_false_iff.mp h.2.2 p (hp.mem_iff.mpr hpb) q
      (hp.mem_iff.mpr hqb) hne i j ho

theorem length_le_vars {cw : Crossword} {a : Assignment} (hg : GoodA cw a) :
    a.length ≤ cw.vars.length := by
  have := (List.subperm_of_subset hg.1 (keysA_subset_vars hg)).length_le
  simpa [keysA] using this

theorem exists_unassigned {cw : Crossword} {a : Assignment} (hg : GoodA cw a)
    (hnd : cw.vars.Nodup) (hcompl : assignment_complete cw a = false) :
    unassignedVars cw a ≠ [] := by
  intro hnil
  have hall : cw.vars ⊆ keysA a := by
    intro v hv
    by_contra hcv
    have hmem : v ∈ unassignedVars cw a := by
      rw [unassignedVars, List.mem_filter]
      refine ⟨hv, by
        rw [Option.isNone_iff_eq_none, lookupA_eq_none_iff]
        intro p hp hpv
        exact hcv (hpv ▸ List.mem_map_of_mem Prod.fst hp)⟩
    rw [hnil] at hmem
    exact absurd hmem (List.not_mem_nil v)
  have h1 : cw.vars.length ≤ a.length := by
    simpa [keysA] using (List.subperm_of_subset hnd hall).length_le
  have h2 : ¬ a.length = cw.vars.length := by
    intro heq
    exact absurd (assignment_complete_iff.mpr heq) (by rw [hcompl]; simp)
  have h3 := length_le_vars hg
  omega

theorem select_is_some {cw : Crossword} {sel : List Var → Option Var}
    {a : Assignment} (hsel : SelOk sel) (hne : unassignedVars cw a ≠ []) :
    ∃ v, select_unassigned_variable cw sel a = some v := by
  obtain ⟨v, hv, -⟩ := hsel _ hne
  refine ⟨v, ?_⟩
  rw [select_unassigned_variable, if_neg (by simpa [List.isEmpty_iff] using hne)]
  exact hv

theorem state_of_gate_false {cw : Crossword} {sel : List Var → Option Var}
    {d : Domains} {fuel : Nat} {a1 : Assignment} {res1 : Option Assignment}
    {s2 : Assignment} (hsel : SelOk sel)
    (hout : backtrack cw sel d fuel a1 = some (res1, s2))
    (hgate : ¬(assignment_complete cw s2 && consistent cw s2) = true) :
    s2 = a1 := by
  have hprops := bk_shape d hsel fuel _ _ _ hout
  rcases hres1 : res1 with _ | r
  · exact (hprops.1 hres1).1
  · rcases (hprops.2 r hres1).2 with ⟨heq, -⟩ | hgate'
    · exact heq
    · exact absurd hgate' hgate

theorem insertA_length {a : Assignment} {v : Var} {w : Word}
    (hla : lookupA a v = none) :
    (insertA a v w).length = a.length + 1 := by
  rw [insertA_eq_append hla]
  simp

/-- With enough fuel (one more than the number of unassigned variables), the
fuelled `backtrack` never runs out: its recursion depth is bounded by the
number of variables. -/
theorem bk_total {cw : Crossword} {sel : List Var → Option Var} (d : Domains)
    (hsel : SelOk sel) (hnd : cw.vars.Nodup) :
    ∀ (fuel : Nat) (a : Assignment), GoodA cw a →
      cw.vars.length + 1 ≤ fuel + a.length →
      ∃ out, backtrack cw sel d fuel a = some out := by
  intro fuel
  induction fuel with
  | zero =>
    intro a hg hfuel
    exact absurd hfuel (by have := length_le_vars hg; omega)
  | succ fuel ih =>
    intro a hg hfuel
    rw [backtrack]
    by_cases hcompl : assignment_complete cw a = true
    · rw [if_pos hcompl]
      exact ⟨_, rfl⟩
    · rw [if_neg hcompl]
      have hne := exists_unassigned hg hnd (Bool.eq_false_iff.mpr hcompl)
      obtain ⟨v, hselv⟩ := select_is_some hsel hne
      rw [hselv]
      have hv := select_mem hsel hselv
      have htv : ∀ (ws : List Word) (a' : Assignment), GoodA cw a' →
          lookupA a' v = none → cw.vars.length + 1 ≤ (fuel + 1) + a'.length →
          ∃ out, tryValues cw (backtrack cw sel d fuel) v ws a' = some out := by
        intro ws
        induction ws with
        | nil =>
          intro a' _ _ _
          exact ⟨_, rfl⟩
        | cons w ws ihw =>
          intro a' hg' hla' hf'
          rw [tryValues]
          have hg1 : GoodA cw (insertA a' v w) := goodA_insertA hg' hv.1 hla'
          have hlen1 := insertA_length (w := w) hla'
          obtain ⟨⟨res1, s2⟩, hout⟩ := ih (insertA a' v w) hg1 (by omega)
          rw [hout]
          dsimp only
          by_cases hgate : (assignment_complete cw s2 && consistent cw s2) = true
          · rw [if_pos hgate]
            exact ⟨_, rfl⟩
          · rw [if_neg hgate, state_of_gate_false hsel hout hgate,
              eraseA_insertA hla']
            exact ihw a' hg' hla' hf'
      exact htv (d v) a hg hv.2 hfuel

/-- Exhaustiveness of the search: if some complete consistent assignment draws
all its words from the current domains, `backtrack` reaches a state that
passes its completeness-and-consistency gate and returns it. -/
theorem bk_complete {cw : Crossword} {sel : List Var → Option Var} {d : Domains}
    {asg : Assignment} (hsel : SelOk sel) (hnd : cw.vars.Nodup)
    (hgasg : GoodA cw asg) (hcasg : assignment_complete cw asg = true)
    (hconsasg : consistent cw asg = true) (hdom : ∀ p ∈ asg, p.2 ∈ d p.1) :
    ∀ (fuel : Nat) (a : Assignment), GoodA cw a → (∀ p ∈ a, p ∈ asg) →
      cw.vars.length + 1 ≤ fuel + a.length →
      ∃ r, backtrack cw sel d fuel a = some (some r, r) ∧
        assignment_complete cw r = true ∧ consistent cw r = true := by
  intro fuel
  induction fuel with
  | zero =>
    intro a hg _ hfuel
    exact absurd hfuel (by have := length_le_vars hg; omega)
  | succ fuel ih =>
    intro a hg hsub hfuel
    by_cases hcompl : assignment_complete cw a = true
    · have hperm : a.Perm asg := by
        refine (List.subperm_of_subset (List.Nodup.of_map Prod.fst hg.1)
          (fun p hp => hsub p hp)).perm_of_length_le ?_
        rw [assignment_complete_iff.mp hcompl, assignment_complete_iff.mp hcasg]
      refine ⟨a, ?_, hcompl, consistent_eq_true_of_perm hperm.symm hconsasg⟩
      rw [backtrack, if_pos hcompl]
    · have hne := exists_unassigned hg hnd (Bool.eq_false_iff.mpr hcompl)
      obtain ⟨v, hselv⟩ := select_is_some hsel hne
      have hv := select_mem hsel hselv
      have hkeys : v ∈ keysA asg :=
        (keysA_perm_vars hgasg (assignment_complete_iff.mp hcasg)).mem_iff.mpr hv.1
      obtain ⟨wv, hwv⟩ := lookupA_of_mem_keys hkeys
      have hwvasg : (v, wv) ∈ asg := mem_of_lookupA hwv
      have hwvd : wv ∈ d v := hdom _ hwvasg
      have htv : ∀ (ws : List Word) (a' : Assignment), GoodA cw a' →
          (∀ p ∈ a', p ∈ asg) → lookupA a' v = none →
          cw.vars.length + 1 ≤ (fuel + 1) + a'.length → wv ∈ ws →
          ∃ r, tryValues cw (backtrack cw sel d fuel) v ws a' = some (some r, r) ∧
            assignment_complete cw r = true ∧ consistent cw r = true := by
        intro ws
        induction ws with
        | nil =>
          intro a' _ _ _ _ hmem
          exact absurd hmem (List.not_mem_nil wv)
        | cons w ws ihw =>
          intro a' hg' hsub' hla' hf' hmem
          rw [tryValues]
          have hg1 : GoodA cw (insertA a' v w) := goodA_insertA hg' hv.1 hla'
          have hlen1 := insertA_length (w := w) hla'
          obtain ⟨⟨res1, s2⟩, hout⟩ := bk_total d hsel hnd fuel (insertA a' v w)
            hg1 (by omega)
          rw [hout]
          dsimp only
          by_cases hgate : (assignment_complete cw s2 && consistent cw s2) = true
          · rw [if_pos hgate]
            rcases hres1 : res1 with _ | r
            · exfalso
              obtain ⟨hseq, hcnot⟩ := (bk_shape d hsel fuel _ _ _ hout).1 hres1
              rw [Bool.and_eq_true, hseq, hcnot] at hgate
              simp at hgate
            · have hrs2 : r = s2 := ((bk_shape d hsel fuel _ _ _ hout).2 r hres1).1
              subst hrs2
              rw [Bool.and_eq_true] at hgate
              exact ⟨r, rfl, hgate.1, hgate.2⟩
          · rw [if_neg hgate, state_of_gate_false hsel hout hgate,
              eraseA_insertA hla']
            by_cases hw : w = wv
            · exfalso
              subst hw
              have hsub1 : ∀ p ∈ insertA a' v w, p ∈ asg := by
                intro p hp
                rcases mem_insertA hla' hp with hp' | rfl
                · exact hsub' p hp'
                · exact hwvasg
              obtain ⟨r, hr, hrc, hrcons⟩ := ih (insertA a' v w) hg1 hsub1 (by omega)
              rw [hout] at hr
              have hpair : (res1, s2) = (some r, r) := by injection hr
              obtain ⟨hres, hs⟩ := Prod.mk.injEq .. ▸ hpair
              rw [hs] at hgate
              exact hgate (by rw [Bool.and_eq_true]; exact ⟨hrc, hrcons⟩)
            · refine ihw a' hg' hsub' hla' hf' ?_
              rcases List.mem_cons.mp hmem with hh | hh
              · exact absurd hh.symm hw
              · exact hh
      obtain ⟨r, hr, hrc, hrcons⟩ := htv (d v) a hg hsub hv.2 hfuel hwvd
      refine ⟨r, ?_, hrc, hrcons⟩
      rw [backtrack, if_neg hcompl, hselv]
      exact hr

/-- C2: under every resolution of the random variable selection, if some
complete assignment over the puzzle's variables drawn from the post node- and
arc-consistency domains is consistent (distinct words and no overlap
conflicts), then `solve()` returns a satisfying assignment rather than
`None`. -/
theorem solve_complete {cw : Crossword} {sel : List Var → Option Var} {b : Bool}
    {d2 : Domains} {asg : Assignment} (hsel : SelOk sel) (hnd : cw.vars.Nodup)
    (hac : ac3 cw (enforce_node_consistency cw (initDomains cw)) none = some (b, d2))
    (hgasg : GoodA cw asg) (hcasg : assignment_complete cw asg = true)
    (hconsasg : consistent cw asg = true) (hdom : ∀ p ∈ asg, p.2 ∈ d2 p.1) :
    ∃ r, solve cw sel = some (some r, r) ∧
      assignment_complete cw r = true ∧ consistent cw r = true := by
  obtain ⟨r, hr, hrc, hrcons⟩ := bk_complete hsel hnd hgasg hcasg hconsasg hdom
    (cw.vars.length + 1) [] goodA_nil (by simp) (by simp)
  refine ⟨r, ?_, hrc, hrcons⟩
  rw [solve, hac]
  exact hr

/-- Witness for C2 at the two-slot puzzle `cwT`, whose dictionary admits the
crossing solution. -/
theorem solve_complete_witness :
    ∃ r, solve cwT headSel = some (some r, r) ∧
      assignment_complete cwT r = true ∧ consistent cwT r = true := by
  have hsome : (ac3 cwT (enforce_node_consistency cwT (initDomains cwT)) none).isSome
      = true := by decide
  rcases hac : ac3 cwT (enforce_node_consistency cwT (initDomains cwT)) none
    with _ | ⟨b, d2⟩
  · rw [hac] at hsome
    exact absurd hsome (by simp)
  · have hm1 : (['a', 'b'] : Word) ∈ d2 xT := by
      have hmap : (ac3 cwT (enforce_node_consistency cwT (initDomains cwT)) none).map
          (fun p => decide ((['a', 'b'] : Word) ∈ p.2 xT)) = some true := by decide
      rw [hac] at hmap
      simpa using hmap
    have hm2 : (['a', 'c', 'e'] : Word) ∈ d2 yT := by
      have hmap : (ac3 cwT (enforce_node_consistency cwT (initDomains cwT)) none).map
          (fun p => decide ((['a', 'c', 'e'] : Word) ∈ p.2 yT)) = some true := by decide
      rw [hac] at hmap
      simpa using hmap
    refine @solve_complete cwT headSel b d2
      [(xT, ['a', 'b']), (yT, ['a', 'c', 'e'])] selOk_headSel (by decide) hac
      ⟨by decide, by decide⟩ (by decide) (by decide) ?_
    intro p hp
    simp only [List.mem_cons, List.not_mem_nil, or_false] at hp
    rcases hp with rfl | rfl
    · exact hm1
    · exact hm2

end CrosswordGen
